import Mathlib

/-!
Shallow embedding of the go-header repository fragment under verification:
`store/heightsub.go` (the height-indexed wait/notify primitive `heightSub`)
and `p2p/peer_tracker.go` (the `PeerTracker` peer reputation tracker).

Go maps are embedded as association lists `List (Nat × β)` with unique keys
in every reachable state; `mlookup`, `minsert`, `merase` mirror Go map read,
write and delete.  Blocking channel receives are not state: a waiting `Sub`
caller is represented by its channel, identified by a numeric token, and a
publish returns the list of (token, header) deliveries that the Go code
performs with `req <- h` on the buffered channels.
-/

set_option autoImplicit false

/-- Go map read `m[k]` (comma-ok form): first entry with key `k`, if any. -/
def mlookup {β : Type} (m : List (Nat × β)) (k : Nat) : Option β :=
  match m with
  | [] => none
  | (k', v) :: rest => if k' = k then some v else mlookup rest k

/-- Go map write `m[k] = v`: replace the entry for `k`, or append a new one. -/
def minsert {β : Type} (m : List (Nat × β)) (k : Nat) (v : β) : List (Nat × β) :=
  match m with
  | [] => [(k, v)]
  | (k', v') :: rest => if k' = k then (k, v) :: rest else (k', v') :: minsert rest k v

/-- Go map delete `delete(m, k)`: drop every entry with key `k`. -/
def merase {β : Type} (m : List (Nat × β)) (k : Nat) : List (Nat × β) :=
  match m with
  | [] => []
  | (k', v) :: rest => if k' = k then merase rest k else (k', v) :: merase rest k

/-- Conditional delete while ranging over a Go map (`for k, v := range m
{ if p(v) { delete(m, k) } }`): keep the entries whose value fails `p`. -/
def merasePred {β : Type} (m : List (Nat × β)) (p : β → Bool) : List (Nat × β) :=
  match m with
  | [] => []
  | (k, v) :: rest => if p v then merasePred rest p else (k, v) :: merasePred rest p

/-!
Embedding of `store/heightsub.go`.

`heightSub[H]` holds an atomic `height` counter and a Go map
`heightReqs map[uint64][]chan H`.  Each waiting channel is identified by a
numeric token; the buffered channel sends performed by `Pub`
(`req <- h`) are returned as a list of (token, header) deliveries.
The header type `H` is a parameter together with its `Height()` accessor
`heightOf` (`header.Header` only needs a height for this fragment).
-/

namespace heightSub

/-- State of `heightSub[H]`: the `height` atomic and the `heightReqs` map. -/
structure HSState where
  height : Nat
  heightReqs : List (Nat × List Nat)
deriving DecidableEq, Repr

/-- Outcome tag of `Sub`: `errElapsedHeight` or a successful registration. -/
inductive SubRes where
  | elapsed
  | registered
deriving DecidableEq, Repr

/-- The registration step `hs.heightReqs[height] = append(hs.heightReqs[height], resp)`:
append token `tok` to the bucket at `h`, creating the bucket if absent. -/
def subRegister (reqs : List (Nat × List Nat)) (h tok : Nat) : List (Nat × List Nat) :=
  match mlookup reqs h with
  | none => reqs ++ [(h, [tok])]
  | some toks => minsert reqs h (toks ++ [tok])

/-- `Sub(ctx, height)` up to the blocking wait: the elapsed-height fast
reject (`hs.Height() >= height`, re-checked under `heightReqsLk`, which in a
sequential embedding coincides with the first check) returns
`errElapsedHeight` with the state untouched; otherwise the caller's channel
`tok` is registered.  The blocking `select` itself is concurrency and is
represented by the returned registration. -/
def Sub (s : HSState) (height tok : Nat) : SubRes × HSState :=
  if s.height ≥ height then
    (.elapsed, s)
  else
    (.registered, { s with heightReqs := subRegister s.heightReqs height tok })

/-- The `ctx.Done()` branch of `Sub`: `delete(hs.heightReqs, height)`.
Note the Go code deletes the whole bucket at `height`, not only the
cancelled caller's channel. -/
def subCancel (s : HSState) (height : Nat) : HSState :=
  { s with heightReqs := merase s.heightReqs height }

/-- Outcome of `Pub`: the `log.Fatal` ordering-violation path, or normal
completion carrying the (token, header) channel sends performed. -/
inductive PubOut (H : Type) where
  | fatal
  | ok (deliveries : List (Nat × H))
deriving DecidableEq, Repr

/-- The bulk loop of `Pub` (`for height, reqs := range hs.heightReqs`):
buckets whose height lies in `[lo, hi]` are fulfilled with
`headers[height-from]` and deleted; the rest are kept.  `headers.getD`
takes the role of the Go slice index (in range whenever the documented
contiguity precondition holds). -/
def pubDeliver {H : Type} (dflt : H) (headers : List H) (lo hi : Nat)
    (reqs : List (Nat × List Nat)) : List (Nat × List Nat) × List (Nat × H) :=
  match reqs with
  | [] => ([], [])
  | (k, toks) :: rest =>
    let r := pubDeliver dflt headers lo hi rest
    if lo ≤ k ∧ k ≤ hi then
      (r.1, toks.map (fun t => (t, headers.getD (k - lo) dflt)) ++ r.2)
    else
      ((k, toks) :: r.1, r.2)

/-- `Pub(headers...)`.  Empty input returns at once.  `lo`/`hi` are the Go
`from`/`to` (`from` is a Lean keyword).  A first height different from
`Height()+1` is the `log.Fatal` path, reached before `SetHeight`, so the
state is returned unchanged.  Otherwise the height advances to `hi` and
either the single-header fast path (direct map lookup) or the bulk loop
fulfills and deletes the matching buckets. -/
def Pub {H : Type} (heightOf : H → Nat) (s : HSState) (headers : List H) :
    PubOut H × HSState :=
  match headers with
  | [] => (.ok [], s)
  | h0 :: tl =>
    let lo := heightOf h0
    let hi := heightOf (tl.getLastD h0)
    if s.height + 1 ≠ lo then
      (.fatal, s)
    else
      let s1 : HSState := { s with height := hi }
      match tl with
      | [] =>
        match mlookup s1.heightReqs lo with
        | none => (.ok [], s1)
        | some toks =>
          (.ok (toks.map (fun t => (t, h0))),
           { s1 with heightReqs := merase s1.heightReqs lo })
      | _ :: _ =>
        let r := pubDeliver h0 (h0 :: tl) lo hi s1.heightReqs
        (.ok r.2, { s1 with heightReqs := r.1 })

/-- The key invariant of the pending-request map: every registered height
is strictly above the current height. -/
def HSInv (s : HSState) : Prop :=
  ∀ kv ∈ s.heightReqs, s.height < kv.1

instance HSInv.dec (s : HSState) : Decidable (HSInv s) :=
  List.decidableBAll _ s.heightReqs

end heightSub

/-!
Embedding of `p2p/peer_tracker.go`.

Peer identities (`peer.ID`) are numbers.  Time (`time.Time`,
`time.Duration`) is numbers of an abstract clock.  Peer scores are exact
rationals standing in for the Go `float32` (the fragment only reads,
copies and compares scores; it performs no float arithmetic).  The libp2p
environment of `connected` — the host's own identity and whether some live
connection to the peer is flagged transient — enters as parameters.  The
connection gater, `ClosePeer` and logging in `blockPeer` are external
best-effort side effects with no bearing on the two maps.
-/

namespace PeerTracker

/-- `defaultScore`: score given to newly connected peers. -/
def defaultScore : ℚ := 1

/-- `maxPeerTrackerSize`: the max amount of peers in the PeerTracker. -/
def maxPeerTrackerSize : Nat := 100

/-- `peerStat`: one peer's identity, score and prune deadline
(zero-valued `pruneDeadline` on a freshly created stat). -/
structure peerStat where
  peerID : Nat
  peerScore : ℚ
  pruneDeadline : Nat
deriving DecidableEq, Repr

/-- The two maps of `PeerTracker` guarded by `peerLk`. -/
structure PTState where
  trackedPeers : List (Nat × peerStat)
  disconnectedPeers : List (Nat × peerStat)
deriving DecidableEq, Repr

/-- `connected(pID)`: skip self; skip if any connection to the peer is
transient; skip when the tracker is over `maxPeerTrackerSize` with more
tracked than disconnected peers; otherwise move the stat out of
`disconnectedPeers` if present (else create a fresh default-score stat)
and store it in `trackedPeers`. -/
def connected (selfID : Nat) (hasTransient : Bool) (s : PTState) (pID : Nat) : PTState :=
  if selfID = pID then s
  else if hasTransient then s
  else if s.trackedPeers.length + s.disconnectedPeers.length > maxPeerTrackerSize ∧
          s.trackedPeers.length > s.disconnectedPeers.length then s
  else
    match mlookup s.disconnectedPeers pID with
    | none =>
      { s with trackedPeers := minsert s.trackedPeers pID ⟨pID, defaultScore, 0⟩ }
    | some stats =>
      { trackedPeers := minsert s.trackedPeers pID stats,
        disconnectedPeers := merase s.disconnectedPeers pID }

/-- `disconnected(pID)`: no-op unless tracked; otherwise stamp
`pruneDeadline = now + maxAwaitingTime` and move the stat into
`disconnectedPeers`. -/
def disconnected (now maxAwaitingTime : Nat) (s : PTState) (pID : Nat) : PTState :=
  match mlookup s.trackedPeers pID with
  | none => s
  | some stats =>
    { trackedPeers := merase s.trackedPeers pID,
      disconnectedPeers :=
        minsert s.disconnectedPeers pID { stats with pruneDeadline := now + maxAwaitingTime } }

/-- One iteration of the `gc` ticker under `peerLk`: prune disconnected
peers whose `pruneDeadline.Before(now)`, prune tracked peers with
`peerScore <= defaultScore`, and collect the surviving tracked identities. -/
def gcSweep (now : Nat) (s : PTState) : PTState × List Nat :=
  let disc := merasePred s.disconnectedPeers (fun st => decide (st.pruneDeadline < now))
  let tracked := merasePred s.trackedPeers (fun st => decide (st.peerScore ≤ defaultScore))
  (⟨tracked, disc⟩, tracked.map Prod.fst)

/-- One full gc cycle including `persistPeers`: the survivors are handed to
the `pidstore` when one is configured (`p.pidstore != nil`). -/
def gcCycle (pidstorePresent : Bool) (now : Nat) (s : PTState) :
    PTState × Option (List Nat) :=
  let r := gcSweep now s
  (r.1, if pidstorePresent then some r.2 else none)

/-- `blockPeer(pID, reason)`, bookkeeping part: the gater / `ClosePeer`
failures are logged and ignored, and the peer is deleted from both maps. -/
def blockPeer (s : PTState) (pID : Nat) : PTState :=
  { trackedPeers := merase s.trackedPeers pID,
    disconnectedPeers := merase s.disconnectedPeers pID }

/-- Disjointness of the two maps: no tracked key is also disconnected. -/
def PTDisjoint (s : PTState) : Prop :=
  ∀ k ∈ s.trackedPeers.map Prod.fst, mlookup s.disconnectedPeers k = none

instance PTDisjoint.dec (s : PTState) : Decidable (PTDisjoint s) :=
  List.decidableBAll _ (s.trackedPeers.map Prod.fst)

end PeerTracker

/-!
Lemmas about the Go map embedding.
-/

theorem mlookup_merase_self {β : Type} (m : List (Nat × β)) (k : Nat) :
    mlookup (merase m k) k = none := by
  induction m with
  | nil => rfl
  | cons kv rest ih =>
    obtain ⟨k', v⟩ := kv
    by_cases h : k' = k
    · simpa [merase, h] using ih
    · simpa [merase, mlookup, h] using ih

theorem mlookup_merase_ne {β : Type} (m : List (Nat × β)) (k k' : Nat) (h : k' ≠ k) :
    mlookup (merase m k) k' = mlookup m k' := by
  induction m with
  | nil => rfl
  | cons kv rest ih =>
    obtain ⟨a, v⟩ := kv
    by_cases ha : a = k
    · have hk : ¬ k = k' := fun hh => h hh.symm
      simpa [merase, mlookup, ha, hk] using ih
    · by_cases ha' : a = k'
      · simp [merase, mlookup, ha, ha', h]
      · simpa [merase, mlookup, ha, ha'] using ih

theorem mem_merase {β : Type} (m : List (Nat × β)) (k : Nat) (kv : Nat × β) :
    kv ∈ merase m k ↔ kv ∈ m ∧ kv.1 ≠ k := by
  induction m with
  | nil => simp [merase]
  | cons kv' rest ih =>
    obtain ⟨a, v⟩ := kv'
    by_cases ha : a = k
    · subst ha
      rw [show merase ((a, v) :: rest) a = merase rest a from by simp [merase], ih]
      constructor
      · rintro ⟨hm, hne⟩
        exact ⟨List.mem_cons.mpr (Or.inr hm), hne⟩
      · rintro ⟨hor, hne⟩
        rcases List.mem_cons.mp hor with heq | hm
        · exact absurd (by rw [heq]) hne
        · exact ⟨hm, hne⟩
    · rw [show merase ((a, v) :: rest) k = (a, v) :: merase rest k from by simp [merase, ha]]
      simp only [List.mem_cons, ih]
      constructor
      · rintro (heq | ⟨hm, hne⟩)
        · subst heq
          exact ⟨Or.inl rfl, ha⟩
        · exact ⟨Or.inr hm, hne⟩
      · rintro ⟨hor, hne⟩
        rcases hor with heq | hm
        · exact Or.inl heq
        · exact Or.inr ⟨hm, hne⟩

theorem mem_merasePred {β : Type} (m : List (Nat × β)) (p : β → Bool) (kv : Nat × β) :
    kv ∈ merasePred m p ↔ kv ∈ m ∧ p kv.2 = false := by
  induction m with
  | nil => simp [merasePred]
  | cons kv' rest ih =>
    obtain ⟨a, v⟩ := kv'
    by_cases hp : p v
    · rw [show merasePred ((a, v) :: rest) p = merasePred rest p from by simp [merasePred, hp], ih]
      constructor
      · rintro ⟨hm, hf⟩
        exact ⟨List.mem_cons.mpr (Or.inr hm), hf⟩
      · rintro ⟨hor, hf⟩
        rcases List.mem_cons.mp hor with heq | hm
        · rw [heq] at hf
          simp [hp] at hf
        · exact ⟨hm, hf⟩
    · rw [show merasePred ((a, v) :: rest) p = (a, v) :: merasePred rest p from by
        simp [merasePred, hp]]
      simp only [List.mem_cons, ih]
      constructor
      · rintro (heq | ⟨hm, hf⟩)
        · subst heq
          exact ⟨Or.inl rfl, by simpa using hp⟩
        · exact ⟨Or.inr hm, hf⟩
      · rintro ⟨hor, hf⟩
        rcases hor with heq | hm
        · exact Or.inl heq
        · exact Or.inr ⟨hm, hf⟩

theorem mlookup_isSome_of_mem {β : Type} (m : List (Nat × β)) (k : Nat) (v : β)
    (h : (k, v) ∈ m) : (mlookup m k).isSome := by
  induction m with
  | nil => cases h
  | cons kv rest ih =>
    obtain ⟨a, w⟩ := kv
    rcases List.mem_cons.mp h with heq | hmem
    · cases heq
      simp [mlookup]
    · by_cases ha : a = k
      · simp [mlookup, ha]
      · simpa [mlookup, ha] using ih hmem

theorem mlookup_eq_of_mem_nodup {β : Type} (m : List (Nat × β)) (k : Nat) (v : β)
    (hnd : (m.map Prod.fst).Nodup) (h : (k, v) ∈ m) : mlookup m k = some v := by
  induction m with
  | nil => cases h
  | cons kv rest ih =>
    obtain ⟨a, w⟩ := kv
    simp only [List.map_cons, List.nodup_cons] at hnd
    rcases List.mem_cons.mp h with heq | hmem
    · cases heq
      simp [mlookup]
    · have hak : a ≠ k := by
        intro hak
        subst hak
        exact hnd.1 (List.mem_map.mpr ⟨(a, v), hmem, rfl⟩)
      simpa [mlookup, hak] using ih hnd.2 hmem

theorem mem_minsert {β : Type} (m : List (Nat × β)) (k : Nat) (v : β) (kv : Nat × β)
    (h : kv ∈ minsert m k v) : kv = (k, v) ∨ kv ∈ m := by
  induction m with
  | nil => simpa [minsert] using h
  | cons kv' rest ih =>
    obtain ⟨a, w⟩ := kv'
    by_cases ha : a = k
    · simp only [minsert, ha, if_pos rfl] at h
      rcases List.mem_cons.mp h with heq | hmem
      · exact Or.inl heq
      · exact Or.inr (List.mem_cons.mpr (Or.inr hmem))
    · simp only [minsert, if_neg ha] at h
      rcases List.mem_cons.mp h with heq | hmem
      · exact Or.inr (List.mem_cons.mpr (Or.inl heq))
      · rcases ih hmem with h1 | h2
        · exact Or.inl h1
        · exact Or.inr (List.mem_cons.mpr (Or.inr h2))

theorem mlookup_minsert_self {β : Type} (m : List (Nat × β)) (k : Nat) (v : β) :
    mlookup (minsert m k v) k = some v := by
  induction m with
  | nil => simp [minsert, mlookup]
  | cons kv rest ih =>
    obtain ⟨a, w⟩ := kv
    by_cases ha : a = k
    · simp [minsert, ha, mlookup]
    · simpa [minsert, mlookup, ha] using ih

theorem mlookup_minsert_ne {β : Type} (m : List (Nat × β)) (k k' : Nat) (v : β)
    (h : k' ≠ k) : mlookup (minsert m k v) k' = mlookup m k' := by
  have hk : ¬ k = k' := fun hh => h hh.symm
  induction m with
  | nil => simp [minsert, mlookup, hk]
  | cons kv rest ih =>
    obtain ⟨a, w⟩ := kv
    by_cases ha : a = k
    · subst ha
      simp [minsert, mlookup, hk]
    · by_cases ha' : a = k'
      · simp [minsert, mlookup, ha, ha', h]
      · simpa [minsert, mlookup, ha, ha'] using ih

/-!
Helper lemmas about `Pub`.
-/

theorem heightSub.pub_fatal_eq {H : Type} (heightOf : H → Nat) (s : heightSub.HSState)
    (h0 : H) (tl : List H) (hne : s.height + 1 ≠ heightOf h0) :
    heightSub.Pub heightOf s (h0 :: tl) = (.fatal, s) := by
  simp [heightSub.Pub, hne]

theorem heightSub.pub_ok_exists {H : Type} (heightOf : H → Nat) (s : heightSub.HSState)
    (h0 : H) (tl : List H) (heq : s.height + 1 = heightOf h0) :
    ∃ ds, (heightSub.Pub heightOf s (h0 :: tl)).1 = heightSub.PubOut.ok ds := by
  cases tl with
  | nil =>
    cases hm : mlookup s.heightReqs (heightOf h0) with
    | none => exact ⟨[], by simp [heightSub.Pub, heq, hm]⟩
    | some toks =>
      exact ⟨toks.map (fun t => (t, h0)), by simp [heightSub.Pub, heq, hm]⟩
  | cons a t =>
    exact ⟨(heightSub.pubDeliver h0 (h0 :: a :: t) (heightOf h0)
      (heightOf ((a :: t).getLastD h0)) s.heightReqs).2, by simp [heightSub.Pub, heq]⟩

/-- C6: for every height `h` with `Height() >= h`, `Sub` returns the
elapsed-height condition immediately, registering nothing: the state
(including the pending-request map) is returned unchanged. -/
theorem heightSub.sub_elapsed_when_height_reached (s : heightSub.HSState) (h tok : Nat)
    (hle : h ≤ s.height) :
    heightSub.Sub s h tok = (.elapsed, s) := by
  simp [heightSub.Sub, hle]

/-- C6 witness: `SetHeight(10)`-style state; `Sub` at height 10 is an
immediate elapsed reject leaving the map untouched. -/
theorem heightSub.sub_elapsed_when_height_reached_witness :
    (10 : Nat) ≤ 10 ∧
    heightSub.Sub ⟨10, [(12, [1])]⟩ 10 5 = (.elapsed, ⟨10, [(12, [1])]⟩) :=
  ⟨by decide, heightSub.sub_elapsed_when_height_reached ⟨10, [(12, [1])]⟩ 10 5 (by decide)⟩

/-- C5: `Pub` with no headers is a no-op without error; with headers it is
fatal exactly when the first header's height differs from `Height()+1`,
and on the fatal path the height counter and the pending map are returned
unchanged. -/
theorem heightSub.pub_empty_noop_and_fatal_iff {H : Type} (heightOf : H → Nat)
    (s : heightSub.HSState) :
    heightSub.Pub heightOf s [] = (.ok [], s) ∧
    (∀ h0 tl, ((heightSub.Pub heightOf s (h0 :: tl)).1 = .fatal ↔
        s.height + 1 ≠ heightOf h0)) ∧
    (∀ h0 tl, (heightSub.Pub heightOf s (h0 :: tl)).1 = .fatal →
        (heightSub.Pub heightOf s (h0 :: tl)).2 = s) := by
  refine ⟨rfl, ?_, ?_⟩
  · intro h0 tl
    constructor
    · intro hfat
      by_cases hc : s.height + 1 = heightOf h0
      · obtain ⟨ds, hds⟩ := heightSub.pub_ok_exists heightOf s h0 tl hc
        rw [hds] at hfat
        cases hfat
      · exact hc
    · intro hne
      rw [heightSub.pub_fatal_eq heightOf s h0 tl hne]
  · intro h0 tl hfat
    by_cases hc : s.height + 1 = heightOf h0
    · obtain ⟨ds, hds⟩ := heightSub.pub_ok_exists heightOf s h0 tl hc
      rw [hds] at hfat
      cases hfat
    · rw [heightSub.pub_fatal_eq heightOf s h0 tl hc]

/-- C1 (evidence for the code bug): with two concurrent waiters, tokens 10
and 11, registered for height 5, one caller's cancellation cleanup
(`delete(hs.heightReqs, height)`) deletes the entire bucket, including the
other caller's registration, and the subsequent publish of heights 1..5
delivers to nobody — whereas without the cancellation the same publish
delivers header 5 to both waiters. -/
theorem heightSub.cancel_deletes_other_waiters :
    (heightSub.Sub (heightSub.Sub ⟨0, []⟩ 5 10).2 5 11).2 = ⟨0, [(5, [10, 11])]⟩ ∧
    heightSub.subCancel ⟨0, [(5, [10, 11])]⟩ 5 = ⟨0, []⟩ ∧
    (heightSub.Pub (fun h => h) (heightSub.subCancel ⟨0, [(5, [10, 11])]⟩ 5)
        [1, 2, 3, 4, 5]).1 = .ok [] ∧
    (heightSub.Pub (fun h => h) ⟨0, [(5, [10, 11])]⟩ [1, 2, 3, 4, 5]).1 =
      .ok [(10, 5), (11, 5)] := by
  decide

/-- C7: when the combined size of the two maps exceeds the maximum (100)
and the tracked set is strictly larger than the disconnected set, a
`connected` call for a fresh, non-self, non-transient peer leaves both maps
unchanged. -/
theorem PeerTracker.connected_capacity_reject (selfID pID : Nat)
    (s : PeerTracker.PTState)
    (hself : selfID ≠ pID)
    (htr : mlookup s.trackedPeers pID = none)
    (hdis : mlookup s.disconnectedPeers pID = none)
    (hover : s.trackedPeers.length + s.disconnectedPeers.length >
      PeerTracker.maxPeerTrackerSize)
    (hmore : s.trackedPeers.length > s.disconnectedPeers.length) :
    PeerTracker.connected selfID false s pID = s := by
  simp [PeerTracker.connected, hself, hover, hmore]

/-- A concrete over-capacity tracker: 52 tracked and 50 disconnected
peers, none of them peer 999. -/
def PeerTracker.capacityState : PeerTracker.PTState :=
  ⟨(List.range 52).map (fun i => (i + 1, ⟨i + 1, 1, 0⟩)),
   (List.range 50).map (fun i => (i + 101, ⟨i + 101, 1, 0⟩))⟩

/-- C7 witness: at the concrete over-capacity state, connecting fresh peer
999 changes nothing. -/
theorem PeerTracker.connected_capacity_reject_witness :
    (0 : Nat) ≠ 999 ∧
    mlookup PeerTracker.capacityState.trackedPeers 999 = none ∧
    mlookup PeerTracker.capacityState.disconnectedPeers 999 = none ∧
    PeerTracker.capacityState.trackedPeers.length +
      PeerTracker.capacityState.disconnectedPeers.length >
      PeerTracker.maxPeerTrackerSize ∧
    PeerTracker.capacityState.trackedPeers.length >
      PeerTracker.capacityState.disconnectedPeers.length ∧
    PeerTracker.connected 0 false PeerTracker.capacityState 999 =
      PeerTracker.capacityState :=
  ⟨by decide, by decide, by decide, by decide, by decide,
   PeerTracker.connected_capacity_reject 0 999 PeerTracker.capacityState
     (by decide) (by decide) (by decide) (by decide) (by decide)⟩

theorem mlookup_mem {β : Type} (m : List (Nat × β)) (k : Nat) (v : β)
    (h : mlookup m k = some v) : (k, v) ∈ m := by
  induction m with
  | nil => cases h
  | cons kv rest ih =>
    obtain ⟨a, w⟩ := kv
    by_cases ha : a = k
    · subst ha
      rw [show mlookup ((a, w) :: rest) a = some w from by simp [mlookup]] at h
      cases h
      exact List.mem_cons.mpr (Or.inl rfl)
    · simp only [mlookup, if_neg ha] at h
      exact List.mem_cons.mpr (Or.inr (ih h))

/-- C8: one gc cycle removes exactly the disconnected entries whose prune
deadline has passed (`pruneDeadline.Before(now)`) and the tracked entries
with score at or below `defaultScore`; every other entry of either map
survives unchanged, and the surviving tracked identities are handed to the
persistence collaborator exactly when one is configured. -/
theorem PeerTracker.gc_cycle_spec (pres : Bool) (now : Nat) (s : PeerTracker.PTState) :
    (∀ kv : Nat × PeerTracker.peerStat,
        kv ∈ (PeerTracker.gcCycle pres now s).1.disconnectedPeers ↔
        kv ∈ s.disconnectedPeers ∧ ¬ kv.2.pruneDeadline < now) ∧
    (∀ kv : Nat × PeerTracker.peerStat,
        kv ∈ (PeerTracker.gcCycle pres now s).1.trackedPeers ↔
        kv ∈ s.trackedPeers ∧ ¬ kv.2.peerScore ≤ PeerTracker.defaultScore) ∧
    (PeerTracker.gcCycle pres now s).2 =
      (if pres then some ((PeerTracker.gcCycle pres now s).1.trackedPeers.map Prod.fst)
       else none) := by
  refine ⟨?_, ?_, ?_⟩
  · intro kv
    simp [PeerTracker.gcCycle, PeerTracker.gcSweep, mem_merasePred]
  · intro kv
    simp [PeerTracker.gcCycle, PeerTracker.gcSweep, mem_merasePred]
  · simp [PeerTracker.gcCycle, PeerTracker.gcSweep]

/-- C9: disjointness of `trackedPeers` and `disconnectedPeers` is
preserved by `connected`, `disconnected`, the gc sweep and `blockPeer`. -/
theorem PeerTracker.ops_preserve_disjointness (selfID pID : Nat) (tr : Bool)
    (now maxAwait : Nat) (s : PeerTracker.PTState)
    (hd : PeerTracker.PTDisjoint s) :
    PeerTracker.PTDisjoint (PeerTracker.connected selfID tr s pID) ∧
    PeerTracker.PTDisjoint (PeerTracker.disconnected now maxAwait s pID) ∧
    PeerTracker.PTDisjoint (PeerTracker.gcSweep now s).1 ∧
    PeerTracker.PTDisjoint (PeerTracker.blockPeer s pID) := by
  refine ⟨?_, ?_, ?_, ?_⟩
  · unfold PeerTracker.connected
    by_cases hs : selfID = pID
    · simpa [hs] using hd
    · by_cases htr : tr
      · simpa [hs, htr] using hd
      · by_cases hcap : s.trackedPeers.length + s.disconnectedPeers.length >
            PeerTracker.maxPeerTrackerSize ∧
            s.trackedPeers.length > s.disconnectedPeers.length
        · simpa [hs, htr, hcap] using hd
        · cases hm : mlookup s.disconnectedPeers pID with
          | none =>
            simp only [hs, htr, hcap, hm, if_false, if_neg, Bool.false_eq_true]
            intro k hk
            simp only [List.mem_map] at hk
            obtain ⟨kv, hkv, hfst⟩ := hk
            rcases mem_minsert _ _ _ _ hkv with heq | hmem
            · rw [heq] at hfst
              simpa [← hfst] using hm
            · exact hd k (List.mem_map.mpr ⟨kv, hmem, hfst⟩)
          | some stats =>
            simp only [hs, htr, hcap, hm, if_false, if_neg, Bool.false_eq_true]
            intro k hk
            simp only [List.mem_map] at hk
            obtain ⟨kv, hkv, hfst⟩ := hk
            rcases mem_minsert _ _ _ _ hkv with heq | hmem
            · rw [heq] at hfst
              rw [← hfst]
              exact mlookup_merase_self _ _
            · by_cases hkp : k = pID
              · rw [hkp]
                exact mlookup_merase_self _ _
              · rw [mlookup_merase_ne _ _ _ hkp]
                exact hd k (List.mem_map.mpr ⟨kv, hmem, hfst⟩)
  · unfold PeerTracker.disconnected
    cases hm : mlookup s.trackedPeers pID with
    | none => simpa using hd
    | some stats =>
      intro k hk
      simp only [List.mem_map] at hk
      obtain ⟨kv, hkv, hfst⟩ := hk
      rw [mem_merase] at hkv
      obtain ⟨hmem, hne⟩ := hkv
      have hkp : k ≠ pID := by
        rw [← hfst]
        exact hne
      rw [mlookup_minsert_ne _ _ _ _ hkp]
      exact hd k (List.mem_map.mpr ⟨kv, hmem, hfst⟩)
  · intro k hk
    simp only [PeerTracker.gcSweep, List.mem_map] at hk
    obtain ⟨kv, hkv, hfst⟩ := hk
    rw [mem_merasePred] at hkv
    have hdk : mlookup s.disconnectedPeers k = none := by
      cases hx : mlookup s.disconnectedPeers k with
      | none => rfl
      | some v =>
        have := hd k (List.mem_map.mpr ⟨kv, hkv.1, hfst⟩)
        rw [this] at hx
        cases hx
    cases hx : mlookup (PeerTracker.gcSweep now s).1.disconnectedPeers k with
    | none => rfl
    | some v =>
      have hmem := mlookup_mem _ _ _ hx
      simp only [PeerTracker.gcSweep, mem_merasePred] at hmem
      have := mlookup_isSome_of_mem _ _ _ hmem.1
      rw [hdk] at this
      cases this
  · intro k hk
    simp only [PeerTracker.blockPeer, List.mem_map] at hk
    obtain ⟨kv, hkv, hfst⟩ := hk
    rw [mem_merase] at hkv
    obtain ⟨hmem, hne⟩ := hkv
    show mlookup (merase s.disconnectedPeers pID) k = none
    by_cases hkp : k = pID
    · rw [hkp]
      exact mlookup_merase_self _ _
    · rw [mlookup_merase_ne _ _ _ hkp]
      exact hd k (List.mem_map.mpr ⟨kv, hmem, hfst⟩)

/-- C9 witness: a concrete disjoint state with one disconnected peer; all
four operations keep the maps disjoint. -/
theorem PeerTracker.ops_preserve_disjointness_witness :
    PeerTracker.PTDisjoint ⟨[], [(2, ⟨2, 1, 7⟩)]⟩ ∧
    (PeerTracker.PTDisjoint (PeerTracker.connected 0 false ⟨[], [(2, ⟨2, 1, 7⟩)]⟩ 2) ∧
     PeerTracker.PTDisjoint (PeerTracker.disconnected 3 4 ⟨[], [(2, ⟨2, 1, 7⟩)]⟩ 2) ∧
     PeerTracker.PTDisjoint (PeerTracker.gcSweep 3 ⟨[], [(2, ⟨2, 1, 7⟩)]⟩).1 ∧
     PeerTracker.PTDisjoint (PeerTracker.blockPeer ⟨[], [(2, ⟨2, 1, 7⟩)]⟩ 2)) :=
  ⟨by decide, PeerTracker.ops_preserve_disjointness 0 2 false 3 4 _ (by decide)⟩

theorem merasePred_sublist {β : Type} (m : List (Nat × β)) (p : β → Bool) :
    (merasePred m p).Sublist m := by
  induction m with
  | nil => simp [merasePred]
  | cons kv rest ih =>
    obtain ⟨a, v⟩ := kv
    by_cases hp : p v
    · rw [show merasePred ((a, v) :: rest) p = merasePred rest p from by simp [merasePred, hp]]
      exact ih.cons _
    · rw [show merasePred ((a, v) :: rest) p = (a, v) :: merasePred rest p from by
        simp [merasePred, hp]]
      exact ih.cons₂ _

theorem nodup_keys_merasePred {β : Type} (m : List (Nat × β)) (p : β → Bool)
    (h : (m.map Prod.fst).Nodup) : ((merasePred m p).map Prod.fst).Nodup :=
  List.Nodup.sublist ((merasePred_sublist m p).map Prod.fst) h

theorem mem_keys_minsert {β : Type} (m : List (Nat × β)) (k : Nat) (v : β) (x : Nat)
    (h : x ∈ (minsert m k v).map Prod.fst) : x = k ∨ x ∈ m.map Prod.fst := by
  rw [List.mem_map] at h
  obtain ⟨kv, hkv, hfst⟩ := h
  rcases mem_minsert _ _ _ _ hkv with heq | hm
  · left
    rw [← hfst, heq]
  · right
    exact List.mem_map.mpr ⟨kv, hm, hfst⟩

theorem nodup_keys_minsert {β : Type} (m : List (Nat × β)) (k : Nat) (v : β)
    (h : (m.map Prod.fst).Nodup) : ((minsert m k v).map Prod.fst).Nodup := by
  induction m with
  | nil => simp [minsert]
  | cons kv rest ih =>
    obtain ⟨a, w⟩ := kv
    simp only [List.map_cons, List.nodup_cons] at h
    by_cases ha : a = k
    · subst ha
      rw [show minsert ((a, w) :: rest) a v = (a, v) :: rest from by simp [minsert]]
      simp only [List.map_cons, List.nodup_cons]
      exact h
    · rw [show minsert ((a, w) :: rest) k v = (a, w) :: minsert rest k v from by
        simp [minsert, ha]]
      simp only [List.map_cons, List.nodup_cons]
      refine ⟨?_, ih h.2⟩
      intro hmem
      rcases mem_keys_minsert _ _ _ _ hmem with heq | hm
      · exact ha heq
      · exact h.1 hm

theorem mlookup_merasePred_nodup {β : Type} (m : List (Nat × β)) (p : β → Bool)
    (k : Nat) (v : β) (hnd : (m.map Prod.fst).Nodup) (h : mlookup m k = some v)
    (hp : p v = false) : mlookup (merasePred m p) k = some v := by
  have hm : (k, v) ∈ merasePred m p :=
    (mem_merasePred m p (k, v)).mpr ⟨mlookup_mem m k v h, hp⟩
  exact mlookup_eq_of_mem_nodup _ _ _ (nodup_keys_merasePred m p hnd) hm

/-- C3 counterexample: peer 7 is tracked with accumulated score 5 and is
not in `disconnectedPeers`; a duplicate `connected(7)` call does not leave
the tracker state unchanged — it overwrites the entry with a fresh
default-score stat, losing the accumulated score. -/
theorem PeerTracker.connected_duplicate_resets_score :
    mlookup (PeerTracker.PTState.mk [(7, ⟨7, 5, 0⟩)] []).trackedPeers 7 =
      some ⟨7, 5, 0⟩ ∧
    mlookup (PeerTracker.PTState.mk [(7, ⟨7, 5, 0⟩)] []).disconnectedPeers 7 = none ∧
    PeerTracker.connected 0 false (PeerTracker.PTState.mk [(7, ⟨7, 5, 0⟩)] []) 7 ≠
      PeerTracker.PTState.mk [(7, ⟨7, 5, 0⟩)] [] ∧
    mlookup (PeerTracker.connected 0 false
        (PeerTracker.PTState.mk [(7, ⟨7, 5, 0⟩)] []) 7).trackedPeers 7 =
      some ⟨7, PeerTracker.defaultScore, 0⟩ := by
  decide

/-- C3 amended: a duplicate `connected` for an already-tracked peer absent
from `disconnectedPeers` (guards passing) leaves `disconnectedPeers` and
every other tracked entry unchanged, but is not idempotent on the peer's
stat: the entry is overwritten with a fresh stat carrying the default
score, so the accumulated score is lost. -/
theorem PeerTracker.connected_duplicate_overwrites (selfID pID : Nat)
    (s : PeerTracker.PTState)
    (hself : selfID ≠ pID)
    (htrk : (mlookup s.trackedPeers pID).isSome)
    (hdis : mlookup s.disconnectedPeers pID = none)
    (hcap : ¬ (s.trackedPeers.length + s.disconnectedPeers.length >
        PeerTracker.maxPeerTrackerSize ∧
        s.trackedPeers.length > s.disconnectedPeers.length)) :
    (PeerTracker.connected selfID false s pID).trackedPeers =
      minsert s.trackedPeers pID ⟨pID, PeerTracker.defaultScore, 0⟩ ∧
    (PeerTracker.connected selfID false s pID).disconnectedPeers =
      s.disconnectedPeers ∧
    mlookup (PeerTracker.connected selfID false s pID).trackedPeers pID =
      some ⟨pID, PeerTracker.defaultScore, 0⟩ ∧
    (∀ k, k ≠ pID →
      mlookup (PeerTracker.connected selfID false s pID).trackedPeers k =
        mlookup s.trackedPeers k) := by
  have hc : PeerTracker.connected selfID false s pID =
      { s with trackedPeers :=
          minsert s.trackedPeers pID ⟨pID, PeerTracker.defaultScore, 0⟩ } := by
    simp [PeerTracker.connected, hself, hcap, hdis]
  refine ⟨by rw [hc], by rw [hc], ?_, ?_⟩
  · rw [hc]
    exact mlookup_minsert_self _ _ _
  · intro k hk
    rw [hc]
    exact mlookup_minsert_ne _ _ _ _ hk

/-- C3 witness: concrete duplicate-connect at the counterexample state. -/
theorem PeerTracker.connected_duplicate_overwrites_witness :
    (0 : Nat) ≠ 7 ∧
    (mlookup (PeerTracker.PTState.mk [(7, ⟨7, 5, 0⟩)] []).trackedPeers 7).isSome ∧
    mlookup (PeerTracker.PTState.mk [(7, ⟨7, 5, 0⟩)] []).disconnectedPeers 7 = none ∧
    ((PeerTracker.connected 0 false (PeerTracker.PTState.mk [(7, ⟨7, 5, 0⟩)] []) 7).trackedPeers =
      minsert [(7, ⟨7, 5, 0⟩)] 7 ⟨7, PeerTracker.defaultScore, 0⟩ ∧
     (PeerTracker.connected 0 false (PeerTracker.PTState.mk [(7, ⟨7, 5, 0⟩)] []) 7).disconnectedPeers = [] ∧
     mlookup (PeerTracker.connected 0 false
        (PeerTracker.PTState.mk [(7, ⟨7, 5, 0⟩)] []) 7).trackedPeers 7 =
       some ⟨7, PeerTracker.defaultScore, 0⟩ ∧
     (∀ k, k ≠ 7 →
       mlookup (PeerTracker.connected 0 false
          (PeerTracker.PTState.mk [(7, ⟨7, 5, 0⟩)] []) 7).trackedPeers k =
         mlookup [(7, (⟨7, 5, 0⟩ : PeerTracker.peerStat))] k)) :=
  ⟨by decide, by decide, by decide,
   PeerTracker.connected_duplicate_overwrites 0 7 (PeerTracker.PTState.mk [(7, ⟨7, 5, 0⟩)] [])
     (by decide) (by decide) (by decide) (by decide)⟩

/-- C4 counterexample: (a) reconnecting peer 7, disconnected with score 5
and prune deadline 99, moves the stat into `trackedPeers` but does not
clear the deadline — the moved stat still carries 99; (b) with the tracker
over capacity and more tracked than disconnected peers, `connected` does
not move a disconnected peer at all: the state is returned unchanged. -/
theorem PeerTracker.connected_keeps_stale_deadline :
    mlookup (PeerTracker.PTState.mk [] [(7, ⟨7, 5, 99⟩)]).disconnectedPeers 7 =
      some ⟨7, 5, 99⟩ ∧
    PeerTracker.connected 0 false (PeerTracker.PTState.mk [] [(7, ⟨7, 5, 99⟩)]) 7 =
      PeerTracker.PTState.mk [(7, ⟨7, 5, 99⟩)] [] ∧
    (mlookup (PeerTracker.connected 0 false
        (PeerTracker.PTState.mk [] [(7, ⟨7, 5, 99⟩)]) 7).trackedPeers 7).map
      PeerTracker.peerStat.pruneDeadline = some 99 ∧
    (mlookup PeerTracker.capacityState.disconnectedPeers 101).isSome ∧
    PeerTracker.connected 0 false PeerTracker.capacityState 101 =
      PeerTracker.capacityState := by
  decide

/-- C4 amended: when the guards pass (non-self, no transient connection,
capacity rule not firing), `connected` on a peer present in
`disconnectedPeers` moves its PeerStat into `trackedPeers` with its
accumulated score retained but its prune deadline NOT cleared (the stale
deadline travels with the stat; it is only re-stamped on the next
disconnect), and removes the peer from `disconnectedPeers`; a peer in
neither map gets a fresh stat with the default score and zero deadline;
and a peer tracked with score `q` that disconnects at time `now` and, with
a gc sweep running at a time `t` not past `now + maxAwaitingTime`,
reconnects, retains score `q`. -/
theorem PeerTracker.connected_moves_disconnected_stat (selfID pID now await : Nat)
    (s : PeerTracker.PTState) (st : PeerTracker.peerStat)
    (hself : selfID ≠ pID)
    (hcap : ¬ (s.trackedPeers.length + s.disconnectedPeers.length >
        PeerTracker.maxPeerTrackerSize ∧
        s.trackedPeers.length > s.disconnectedPeers.length)) :
    (mlookup s.disconnectedPeers pID = some st →
      (PeerTracker.connected selfID false s pID).trackedPeers =
        minsert s.trackedPeers pID st ∧
      mlookup (PeerTracker.connected selfID false s pID).trackedPeers pID = some st ∧
      mlookup (PeerTracker.connected selfID false s pID).disconnectedPeers pID = none) ∧
    (mlookup s.disconnectedPeers pID = none →
      (PeerTracker.connected selfID false s pID).trackedPeers =
        minsert s.trackedPeers pID ⟨pID, PeerTracker.defaultScore, 0⟩) ∧
    (∀ t, mlookup s.trackedPeers pID = some st →
      (s.disconnectedPeers.map Prod.fst).Nodup →
      ¬ (now + await < t) →
      ¬ ((PeerTracker.gcSweep t
            (PeerTracker.disconnected now await s pID)).1.trackedPeers.length +
          (PeerTracker.gcSweep t
            (PeerTracker.disconnected now await s pID)).1.disconnectedPeers.length >
          PeerTracker.maxPeerTrackerSize ∧
         (PeerTracker.gcSweep t
            (PeerTracker.disconnected now await s pID)).1.trackedPeers.length >
          (PeerTracker.gcSweep t
            (PeerTracker.disconnected now await s pID)).1.disconnectedPeers.length) →
      (mlookup (PeerTracker.connected selfID false
          (PeerTracker.gcSweep t
            (PeerTracker.disconnected now await s pID)).1 pID).trackedPeers pID).map
        PeerTracker.peerStat.peerScore = some st.peerScore) := by
  refine ⟨?_, ?_, ?_⟩
  · intro hdis
    have hc : PeerTracker.connected selfID false s pID =
        { trackedPeers := minsert s.trackedPeers pID st,
          disconnectedPeers := merase s.disconnectedPeers pID } := by
      simp [PeerTracker.connected, hself, hcap, hdis]
    refine ⟨by rw [hc], ?_, ?_⟩
    · rw [hc]
      exact mlookup_minsert_self _ _ _
    · rw [hc]
      exact mlookup_merase_self _ _
  · intro hdis
    simp [PeerTracker.connected, hself, hcap, hdis]
  · intro t htrk hnd ht hcap2
    have hdis1 : mlookup
        (PeerTracker.disconnected now await s pID).disconnectedPeers pID =
        some { st with pruneDeadline := now + await } := by
      simp only [PeerTracker.disconnected, htrk]
      exact mlookup_minsert_self _ _ _
    have hnd1 : ((PeerTracker.disconnected now await s pID).disconnectedPeers.map
        Prod.fst).Nodup := by
      simp only [PeerTracker.disconnected, htrk]
      exact nodup_keys_minsert _ _ _ hnd
    have hdis2 : mlookup
        ((PeerTracker.gcSweep t (PeerTracker.disconnected now await s pID)).1).disconnectedPeers
          pID = some { st with pruneDeadline := now + await } := by
      simp only [PeerTracker.gcSweep]
      refine mlookup_merasePred_nodup _ _ _ _ hnd1 hdis1 ?_
      simp only [decide_eq_false_iff_not]
      exact ht
    have hc : PeerTracker.connected selfID false
        (PeerTracker.gcSweep t (PeerTracker.disconnected now await s pID)).1 pID =
        { trackedPeers := minsert
            (PeerTracker.gcSweep t (PeerTracker.disconnected now await s pID)).1.trackedPeers
            pID { st with pruneDeadline := now + await },
          disconnectedPeers := merase
            (PeerTracker.gcSweep t
              (PeerTracker.disconnected now await s pID)).1.disconnectedPeers pID } := by
      simp [PeerTracker.connected, hself, hcap2, hdis2]
    rw [hc]
    simp only [mlookup_minsert_self]
    rfl

/-- C4 witness: peer 7 disconnected at time 3 with await 10; a gc sweep at
time 5 does not prune it; reconnecting retains score 5; the move and
fresh-stat cases are exercised at the same concrete state. -/
theorem PeerTracker.connected_moves_disconnected_stat_witness :
    (0 : Nat) ≠ 7 ∧
    ¬ (([] : List (Nat × PeerTracker.peerStat)).length +
        ([(7, (⟨7, 5, 99⟩ : PeerTracker.peerStat))]).length >
        PeerTracker.maxPeerTrackerSize ∧
       ([] : List (Nat × PeerTracker.peerStat)).length >
        ([(7, (⟨7, 5, 99⟩ : PeerTracker.peerStat))]).length) ∧
    mlookup (PeerTracker.PTState.mk [] [(7, ⟨7, 5, 99⟩)]).disconnectedPeers 7 =
      some ⟨7, 5, 99⟩ ∧
    ((PeerTracker.connected 0 false (PeerTracker.PTState.mk [] [(7, ⟨7, 5, 99⟩)]) 7).trackedPeers =
      minsert [] 7 ⟨7, 5, 99⟩ ∧
     mlookup (PeerTracker.connected 0 false
        (PeerTracker.PTState.mk [] [(7, ⟨7, 5, 99⟩)]) 7).trackedPeers 7 = some ⟨7, 5, 99⟩ ∧
     mlookup (PeerTracker.connected 0 false
        (PeerTracker.PTState.mk [] [(7, ⟨7, 5, 99⟩)]) 7).disconnectedPeers 7 = none) :=
  ⟨by decide, by decide, by decide,
   (PeerTracker.connected_moves_disconnected_stat 0 7 3 10
      (PeerTracker.PTState.mk [] [(7, ⟨7, 5, 99⟩)]) ⟨7, 5, 99⟩
      (by decide) (by decide)).1 (by decide)⟩

/-- C4 witness for the reconnect-retains-score scenario: peer 7 tracked
with score 5 disconnects at time 3 (await 10), survives the gc sweep at
time 5, and reconnects with score 5 intact. -/
theorem PeerTracker.reconnect_retains_score_witness :
    (mlookup (PeerTracker.connected 0 false
        (PeerTracker.gcSweep 5
          (PeerTracker.disconnected 3 10
            (PeerTracker.PTState.mk [(7, ⟨7, 5, 0⟩)] []) 7)).1 7).trackedPeers 7).map
      PeerTracker.peerStat.peerScore = some 5 :=
  (PeerTracker.connected_moves_disconnected_stat 0 7 3 10
      (PeerTracker.PTState.mk [(7, ⟨7, 5, 0⟩)] []) ⟨7, 5, 0⟩
      (by decide) (by decide)).2.2 5 (by decide) (by decide) (by decide) (by decide)

theorem heightSub.pubDeliver_cons {H : Type} (dflt : H) (headers : List H) (lo hi : Nat)
    (a : Nat) (tks : List Nat) (rest : List (Nat × List Nat)) :
    heightSub.pubDeliver dflt headers lo hi ((a, tks) :: rest) =
      if lo ≤ a ∧ a ≤ hi then
        ((heightSub.pubDeliver dflt headers lo hi rest).1,
         tks.map (fun t => (t, headers.getD (a - lo) dflt)) ++
           (heightSub.pubDeliver dflt headers lo hi rest).2)
      else
        ((a, tks) :: (heightSub.pubDeliver dflt headers lo hi rest).1,
         (heightSub.pubDeliver dflt headers lo hi rest).2) := by
  simp [heightSub.pubDeliver]

theorem heightSub.pubDeliver_lookup_in_range {H : Type} (dflt : H) (headers : List H)
    (lo hi : Nat) (reqs : List (Nat × List Nat)) (k : Nat)
    (hlo : lo ≤ k) (hhi : k ≤ hi) :
    mlookup (heightSub.pubDeliver dflt headers lo hi reqs).1 k = none := by
  induction reqs with
  | nil => rfl
  | cons kv rest ih =>
    obtain ⟨a, tks⟩ := kv
    rw [heightSub.pubDeliver_cons]
    by_cases hc : lo ≤ a ∧ a ≤ hi
    · rw [if_pos hc]
      exact ih
    · rw [if_neg hc]
      have hak : a ≠ k := by
        intro h
        subst h
        exact hc ⟨hlo, hhi⟩
      simpa [mlookup, hak] using ih

theorem heightSub.pubDeliver_lookup_out_range {H : Type} (dflt : H) (headers : List H)
    (lo hi : Nat) (reqs : List (Nat × List Nat)) (k : Nat)
    (hout : ¬ (lo ≤ k ∧ k ≤ hi)) :
    mlookup (heightSub.pubDeliver dflt headers lo hi reqs).1 k = mlookup reqs k := by
  induction reqs with
  | nil => rfl
  | cons kv rest ih =>
    obtain ⟨a, tks⟩ := kv
    rw [heightSub.pubDeliver_cons]
    by_cases hc : lo ≤ a ∧ a ≤ hi
    · have hak : a ≠ k := by
        intro h
        subst h
        exact hout hc
      rw [if_pos hc]
      simpa [mlookup, hak] using ih
    · rw [if_neg hc]
      by_cases hak : a = k
      · subst hak
        simp [mlookup]
      · simpa [mlookup, hak] using ih

theorem heightSub.pubDeliver_delivers {H : Type} (dflt : H) (headers : List H)
    (lo hi : Nat) (reqs : List (Nat × List Nat)) (k : Nat) (toks : List Nat) (t : Nat)
    (hmem : (k, toks) ∈ reqs) (hlo : lo ≤ k) (hhi : k ≤ hi) (ht : t ∈ toks) :
    (t, headers.getD (k - lo) dflt) ∈ (heightSub.pubDeliver dflt headers lo hi reqs).2 := by
  induction reqs with
  | nil => cases hmem
  | cons kv rest ih =>
    obtain ⟨a, tks⟩ := kv
    rw [heightSub.pubDeliver_cons]
    rcases List.mem_cons.mp hmem with heq | hm
    · cases heq
      rw [if_pos ⟨hlo, hhi⟩]
      exact List.mem_append.mpr (Or.inl (List.mem_map.mpr ⟨t, ht, rfl⟩))
    · by_cases hc : lo ≤ a ∧ a ≤ hi
      · rw [if_pos hc]
        exact List.mem_append.mpr (Or.inr (ih hm))
      · rw [if_neg hc]
        exact ih hm

theorem heightSub.pubDeliver_mem_kept {H : Type} (dflt : H) (headers : List H)
    (lo hi : Nat) (reqs : List (Nat × List Nat)) (kv : Nat × List Nat)
    (h : kv ∈ (heightSub.pubDeliver dflt headers lo hi reqs).1) :
    kv ∈ reqs ∧ ¬ (lo ≤ kv.1 ∧ kv.1 ≤ hi) := by
  induction reqs with
  | nil =>
    simp [heightSub.pubDeliver] at h
  | cons kv' rest ih =>
    obtain ⟨a, tks⟩ := kv'
    rw [heightSub.pubDeliver_cons] at h
    by_cases hc : lo ≤ a ∧ a ≤ hi
    · rw [if_pos hc] at h
      obtain ⟨hm, hout⟩ := ih h
      exact ⟨List.mem_cons.mpr (Or.inr hm), hout⟩
    · rw [if_neg hc] at h
      rcases List.mem_cons.mp h with heq | hm
      · subst heq
        exact ⟨List.mem_cons.mpr (Or.inl rfl), hc⟩
      · obtain ⟨hm2, hout⟩ := ih hm
        exact ⟨List.mem_cons.mpr (Or.inr hm2), hout⟩

theorem getD_default_irrel {H : Type} (l : List H) (i : Nat) (d1 d2 : H)
    (h : i < l.length) : l.getD i d1 = l.getD i d2 := by
  induction l generalizing i with
  | nil => cases h
  | cons a t ih =>
    cases i with
    | zero => rfl
    | succ n => exact ih n (Nat.lt_of_succ_lt_succ h)

theorem getLastD_as_getD {H : Type} (tl : List H) (h0 : H) :
    tl.getLastD h0 = (h0 :: tl).getD tl.length h0 := by
  induction tl generalizing h0 with
  | nil => rfl
  | cons a t ih =>
    have h1 : (a :: t).getD t.length a = (a :: t).getD t.length h0 :=
      getD_default_irrel _ _ _ _ (by simp [Nat.lt_succ_of_le])
    calc (a :: t).getLastD h0 = t.getLastD a := by
          cases t with
          | nil => rfl
          | cons b tt =>
            simp [List.getLastD_eq_getLast?, List.getLast?_cons_cons, List.getLast?_cons]
      _ = (a :: t).getD t.length a := ih a
      _ = (a :: t).getD t.length h0 := h1
      _ = (h0 :: a :: t).getD (a :: t).length h0 := rfl

theorem heightSub.pub_single_eq {H : Type} (heightOf : H → Nat) (s : heightSub.HSState)
    (h0 : H) (heq : s.height + 1 = heightOf h0) :
    heightSub.Pub heightOf s [h0] =
      (match mlookup s.heightReqs (heightOf h0) with
       | none => (.ok [], ⟨heightOf h0, s.heightReqs⟩)
       | some toks =>
         (.ok (toks.map (fun t => (t, h0))),
          ⟨heightOf h0, merase s.heightReqs (heightOf h0)⟩)) := by
  cases hm : mlookup s.heightReqs (heightOf h0) <;> simp [heightSub.Pub, heq, hm]

theorem heightSub.pub_bulk_eq {H : Type} (heightOf : H → Nat) (s : heightSub.HSState)
    (h0 a : H) (t : List H) (heq : s.height + 1 = heightOf h0) :
    heightSub.Pub heightOf s (h0 :: a :: t) =
      (.ok (heightSub.pubDeliver h0 (h0 :: a :: t) (heightOf h0)
          (heightOf ((a :: t).getLastD h0)) s.heightReqs).2,
       ⟨heightOf ((a :: t).getLastD h0),
        (heightSub.pubDeliver h0 (h0 :: a :: t) (heightOf h0)
          (heightOf ((a :: t).getLastD h0)) s.heightReqs).1⟩) := by
  simp [heightSub.Pub, heq]

/-- C10: every key in the pending-request map is strictly greater than the
current height; this is preserved by `Sub` in both outcomes (the height is
re-checked before registering), by the cancellation cleanup (which only
removes entries), and by `Pub` in both outcomes (after the height advances
to the last published height, every bucket inside the published range is
removed).  `SetHeight` is outside this operation set. -/
theorem heightSub.pending_above_height_invariant {H : Type} (heightOf : H → Nat)
    (s : heightSub.HSState) (h tok : Nat) (headers : List H)
    (hinv : heightSub.HSInv s) :
    heightSub.HSInv (heightSub.Sub s h tok).2 ∧
    heightSub.HSInv (heightSub.subCancel s h) ∧
    heightSub.HSInv (heightSub.Pub heightOf s headers).2 := by
  refine ⟨?_, ?_, ?_⟩
  · by_cases hge : s.height ≥ h
    · rw [show heightSub.Sub s h tok = (.elapsed, s) from by simp [heightSub.Sub, hge]]
      exact hinv
    · rw [show heightSub.Sub s h tok =
          (.registered, { s with heightReqs := heightSub.subRegister s.heightReqs h tok })
          from by simp [heightSub.Sub, hge]]
      have hlt : s.height < h := Nat.lt_of_not_le hge
      cases hm : mlookup s.heightReqs h with
      | none =>
        intro kv hkv
        simp only [heightSub.subRegister, hm] at hkv
        rcases List.mem_append.mp hkv with hmem | hmem
        · exact hinv kv hmem
        · rw [List.mem_singleton] at hmem
          rw [hmem]
          exact hlt
      | some toks =>
        intro kv hkv
        simp only [heightSub.subRegister, hm] at hkv
        rcases mem_minsert _ _ _ _ hkv with heq | hmem
        · rw [heq]
          exact hlt
        · exact hinv kv hmem
  · intro kv hkv
    rw [show (heightSub.subCancel s h).heightReqs = merase s.heightReqs h from rfl,
      mem_merase] at hkv
    exact hinv kv hkv.1
  · cases headers with
    | nil => exact hinv
    | cons h0 tl =>
      by_cases hc : s.height + 1 = heightOf h0
      · cases tl with
        | nil =>
          rw [heightSub.pub_single_eq heightOf s h0 hc]
          cases hm : mlookup s.heightReqs (heightOf h0) with
          | none =>
            intro kv hkv
            obtain ⟨k1, tk⟩ := kv
            have h1 := hinv (k1, tk) hkv
            have hle : heightOf h0 ≤ k1 := by omega
            rcases Nat.eq_or_lt_of_le hle with heq2 | hlt2
            · exfalso
              have hsome := mlookup_isSome_of_mem s.heightReqs k1 tk hkv
              rw [← heq2] at hsome
              rw [hm] at hsome
              cases hsome
            · exact hlt2
          | some toks =>
            intro kv hkv
            obtain ⟨k1, tk⟩ := kv
            rw [mem_merase] at hkv
            have h1 := hinv _ hkv.1
            have hne : k1 ≠ heightOf h0 := hkv.2
            show heightOf h0 < k1
            omega
        | cons a t =>
          rw [heightSub.pub_bulk_eq heightOf s h0 a t hc]
          intro kv hkv
          obtain ⟨hm, hout⟩ := heightSub.pubDeliver_mem_kept _ _ _ _ _ _ hkv
          have h1 := hinv kv hm
          have hle : heightOf h0 ≤ kv.1 := by omega
          rcases Nat.lt_or_ge (heightOf ((a :: t).getLastD h0)) kv.1 with hgt | hge2
          · exact hgt
          · exact absurd ⟨hle, hge2⟩ hout
      · rw [heightSub.pub_fatal_eq heightOf s h0 tl hc]
        exact hinv

/-- C10 witness: a concrete state with height 1 and one pending bucket at
height 3; registration at 5, cancellation at 5, and a publish of heights
2..3 all keep every pending key above the current height. -/
theorem heightSub.pending_above_height_invariant_witness :
    heightSub.HSInv ⟨1, [(3, [10])]⟩ ∧
    (heightSub.HSInv (heightSub.Sub ⟨1, [(3, [10])]⟩ 5 20).2 ∧
     heightSub.HSInv (heightSub.subCancel ⟨1, [(3, [10])]⟩ 5) ∧
     heightSub.HSInv (heightSub.Pub (fun h => h) ⟨1, [(3, [10])]⟩ [2, 3]).2) :=
  ⟨by decide,
   heightSub.pending_above_height_invariant (fun h => h) ⟨1, [(3, [10])]⟩ 5 20 [2, 3]
     (by decide)⟩

/-- C2: publishing a non-empty batch of headers whose heights form the
contiguous increasing range starting at `Height()+1` advances the height
to the last published height, fulfills every pending bucket whose height
lies in the published range with the header of exactly that height
(computed by offset into the batch) and removes that bucket from the map,
and leaves every bucket above the range with its lookup unchanged. -/
theorem heightSub.pub_contiguous_fulfills {H : Type} (heightOf : H → Nat)
    (s : heightSub.HSState) (h0 : H) (tl : List H)
    (hnd : (s.heightReqs.map Prod.fst).Nodup)
    (hfrom : s.height + 1 = heightOf h0)
    (hcontig : ∀ i, i < (h0 :: tl).length →
      heightOf ((h0 :: tl).getD i h0) = heightOf h0 + i) :
    (heightSub.Pub heightOf s (h0 :: tl)).2.height = heightOf h0 + tl.length ∧
    (∃ ds, (heightSub.Pub heightOf s (h0 :: tl)).1 = .ok ds ∧
      ∀ k toks, (k, toks) ∈ s.heightReqs → heightOf h0 ≤ k →
        k ≤ heightOf h0 + tl.length →
        mlookup (heightSub.Pub heightOf s (h0 :: tl)).2.heightReqs k = none ∧
        heightOf ((h0 :: tl).getD (k - heightOf h0) h0) = k ∧
        (∀ t ∈ toks, (t, (h0 :: tl).getD (k - heightOf h0) h0) ∈ ds)) ∧
    (∀ k, heightOf h0 + tl.length < k →
      mlookup (heightSub.Pub heightOf s (h0 :: tl)).2.heightReqs k =
        mlookup s.heightReqs k) := by
  have hhi : heightOf (tl.getLastD h0) = heightOf h0 + tl.length := by
    rw [getLastD_as_getD]
    exact hcontig tl.length (by simp)
  cases tl with
  | nil =>
    rw [heightSub.pub_single_eq heightOf s h0 hfrom]
    cases hm : mlookup s.heightReqs (heightOf h0) with
    | none =>
      refine ⟨by simp, ⟨[], rfl, ?_⟩, ?_⟩
      · intro k toks hmem hlo hhi'
        exfalso
        have hk : k = heightOf h0 := Nat.le_antisymm (by simpa using hhi') hlo
        have hsome := mlookup_isSome_of_mem s.heightReqs k toks hmem
        rw [hk, hm] at hsome
        cases hsome
      · intro k hgt
        rfl
    | some toks0 =>
      refine ⟨by simp, ⟨toks0.map (fun t => (t, h0)), rfl, ?_⟩, ?_⟩
      · intro k toks hmem hlo hhi'
        have hk : k = heightOf h0 := Nat.le_antisymm (by simpa using hhi') hlo
        subst hk
        have hlk := mlookup_eq_of_mem_nodup s.heightReqs (heightOf h0) toks hnd hmem
        rw [hm] at hlk
        injection hlk with hlk
        subst hlk
        refine ⟨mlookup_merase_self _ _, by simp [Nat.sub_self], ?_⟩
        intro t ht
        simp only [Nat.sub_self, List.getD_cons_zero]
        exact List.mem_map.mpr ⟨t, ht, rfl⟩
      · intro k hgt
        exact mlookup_merase_ne _ _ _ (by omega)
  | cons a t =>
    rw [heightSub.pub_bulk_eq heightOf s h0 a t hfrom]
    refine ⟨by simpa using hhi, ?_, ?_⟩
    · refine ⟨(heightSub.pubDeliver h0 (h0 :: a :: t) (heightOf h0)
          (heightOf ((a :: t).getLastD h0)) s.heightReqs).2, rfl, ?_⟩
      intro k toks hmem hlo hhi'
      have hhiK : k ≤ heightOf ((a :: t).getLastD h0) := by
        rw [hhi]
        exact hhi'
      refine ⟨?_, ?_, ?_⟩
      · exact heightSub.pubDeliver_lookup_in_range _ _ _ _ _ _ hlo hhiK
      · have hidx : k - heightOf h0 < (h0 :: a :: t).length := by
          simp only [List.length_cons] at hhi' ⊢
          omega
        have hx := hcontig (k - heightOf h0) hidx
        rw [hx]
        omega
      · intro tt htt
        exact heightSub.pubDeliver_delivers _ _ _ _ _ _ _ _ hmem hlo hhiK htt
    · intro k hgt
      have hgt2 : heightOf ((a :: t).getLastD h0) < k := by
        rw [hhi]
        exact hgt
      exact heightSub.pubDeliver_lookup_out_range _ _ _ _ _ _ (by omega)

/-- C2 witness: height 1, pending buckets at heights 2, 3 and 5;
publishing the headers of heights 2 and 3 advances the height to 3,
fulfills the buckets at 2 and 3 with the matching headers (tokens 10 and
11), and leaves the bucket at 5 untouched. -/
theorem heightSub.pub_contiguous_fulfills_witness :
    ((([(2, [10]), (3, [11]), (5, [12])] : List (Nat × List Nat)).map Prod.fst).Nodup ∧
     (1 : Nat) + 1 = 2 ∧
     (∀ i, i < ([2, 3] : List Nat).length → ([2, 3] : List Nat).getD i 2 = 2 + i)) ∧
    ((heightSub.Pub (fun h => h)
        ⟨1, [(2, [10]), (3, [11]), (5, [12])]⟩ [2, 3]).2.height = 2 + 1 ∧
     (∃ ds, (heightSub.Pub (fun h => h)
          ⟨1, [(2, [10]), (3, [11]), (5, [12])]⟩ [2, 3]).1 = .ok ds ∧
       ∀ k toks, (k, toks) ∈ [(2, [10]), (3, [11]), (5, [12])] → 2 ≤ k → k ≤ 2 + 1 →
         mlookup (heightSub.Pub (fun h => h)
             ⟨1, [(2, [10]), (3, [11]), (5, [12])]⟩ [2, 3]).2.heightReqs k = none ∧
         ([2, 3] : List Nat).getD (k - 2) 2 = k ∧
         (∀ t ∈ toks, (t, ([2, 3] : List Nat).getD (k - 2) 2) ∈ ds)) ∧
     (∀ k, 2 + 1 < k →
       mlookup (heightSub.Pub (fun h => h)
           ⟨1, [(2, [10]), (3, [11]), (5, [12])]⟩ [2, 3]).2.heightReqs k =
         mlookup [(2, [10]), (3, [11]), (5, [12])] k)) :=
  ⟨⟨by decide, by decide, by decide⟩,
   heightSub.pub_contiguous_fulfills (fun h => h)
     ⟨1, [(2, [10]), (3, [11]), (5, [12])]⟩ 2 [3]
     (by decide) (by decide) (by decide)⟩
